import Mathlib

/-!
Shallow embedding of `src/memory_storage/mod.rs` from the `actix-raft`
repository: the in-memory reference implementation of the `RaftStorage`
contract (an append-only log store, a state-machine store, a hard state and
a snapshot slot, exposed through eight request/response operations).

The two `BTreeMap<u64, Entry>` fields are embedded as association lists
sorted by strictly increasing key; `BTreeMap::insert` becomes an ordered
insert-or-replace, `BTreeMap::range(start..stop)` becomes a filter over the
half-open key interval — returning `none` when `start > stop`, which models
the documented panic of `BTreeMap::range` on an inverted range.  Each actix
handler becomes a pure function from the storage state to a
`Except MemoryStorageError result × MemoryStorage` pair (the mutated state).
-/

/-- Modelled from the spec: `NodeId` is an opaque participant identifier
(`u64` in the crate); indices never overflow in these operations, so `Nat`
is faithful. -/
abbrev NodeId := Nat

/-- Modelled from the spec: a log entry `{index, term, payload}` from
`crate::messages` (not under `src/`); the payload is opaque to the backend,
so it is embedded as a plain `Nat`. -/
structure Entry where
  index : Nat
  term : Nat
  payload : Nat
deriving DecidableEq, Repr

/-- Modelled from the spec: `HardState {current_term, voted_for, members}`
from `crate::storage` (not under `src/`). -/
structure HardState where
  current_term : Nat
  voted_for : Option NodeId
  members : List NodeId
deriving DecidableEq, Repr

/-- Modelled from the spec: the derived read-only
`InitialState {last_log_index, last_log_term, last_applied_log, hard_state}`
from `crate::storage` (not under `src/`). -/
structure InitialState where
  last_log_index : Nat
  last_log_term : Nat
  last_applied_log : Nat
  hard_state : HardState
deriving DecidableEq, Repr

/-- Modelled from the spec: the opaque descriptor of the most recent
snapshot (covering index/term plus backend-defined payload), from
`crate::storage` (not under `src/`).  The reference backend never constructs
one, so the exact fields are irrelevant to every claim. -/
structure CurrentSnapshotData where
  index : Nat
  term : Nat
  membership : List NodeId
  pointer : Nat
deriving DecidableEq, Repr

/-- The concrete error type used by the `MemoryStorage` system
(`pub struct MemoryStorageError;`, a unit struct). -/
structure MemoryStorageError where
deriving DecidableEq, Repr

/-- `BTreeMap::insert` on a key-sorted association list: insert-or-replace
at key `k`, keeping keys strictly increasing. -/
def btreeInsert (k : Nat) (v : Entry) : List (Nat × Entry) → List (Nat × Entry)
  | [] => [(k, v)]
  | (k', v') :: rest =>
    if k < k' then (k, v) :: (k', v') :: rest
    else if k = k' then (k, v) :: rest
    else (k', v') :: btreeInsert k v rest

/-- `BTreeMap::range(start..stop)`: the entries whose key lies in the
half-open interval `[start, stop)`, in ascending key order.  `BTreeMap` is
documented to panic when the range start exceeds its end; the panic is
modelled as `none`. -/
def btreeRange (start stop : Nat) (l : List (Nat × Entry)) :
    Option (List (Nat × Entry)) :=
  if start ≤ stop then
    some (l.filter (fun p => decide (start ≤ p.1) && decide (p.1 < stop)))
  else none

/-- `BTreeMap::get`-style lookup on an association list (first pair whose
key matches). -/
def lookup (i : Nat) (l : List (Nat × Entry)) : Option Entry :=
  (l.find? (fun p => p.1 == i)).map (fun p => p.2)

/-- The keys of an association list are strictly increasing (the `BTreeMap`
representation invariant). -/
abbrev SortedKeys (l : List (Nat × Entry)) : Prop :=
  l.Pairwise (fun p q => p.1 < q.1)

/-- Every stored entry sits at the key equal to its own `index` field (the
invariant the append handlers establish). -/
abbrev KeysMatch (l : List (Nat × Entry)) : Prop :=
  ∀ p ∈ l, p.2.index = p.1

/-- Largest key present in an association list, `0` when empty. -/
def maxKey (l : List (Nat × Entry)) : Nat :=
  (l.map (fun p => p.1)).foldr Nat.max 0

/-- Fold a batch of entries into a map, inserting each at its own index
(the loop body shared by `AppendLogEntries` and
`ApplyEntriesToStateMachine`). -/
def writeEntries (es : List Entry) (l : List (Nat × Entry)) :
    List (Nat × Entry) :=
  es.foldl (fun acc e => btreeInsert e.index e acc) l

/-- The last entry of `es` whose `index` equals `i`, if any: the
"last-writer-wins" reading of a sequence of writes. -/
def lastWriteAt (i : Nat) : List Entry → Option Entry
  | [] => none
  | e :: es =>
    match lastWriteAt i es with
    | some r => some r
    | none => if e.index = i then some e else none

/-- Left-biased choice on optional entries. -/
def orOpt (a b : Option Entry) : Option Entry :=
  match a with
  | some x => some x
  | none => b

/-- The `MemoryStorage` struct: hard state, log, snapshot slot, snapshot
directory label, state machine. -/
structure MemoryStorage where
  hs : HardState
  log : List (Nat × Entry)
  snapshot_data : Option CurrentSnapshotData
  snapshot_dir : String
  state_machine : List (Nat × Entry)
deriving DecidableEq, Repr

/-- `RaftStorage::new`: term 0, no vote, the given members; empty log,
empty state machine, no snapshot. -/
def MemoryStorage.new (members : List NodeId) (snapshot_dir : String) :
    MemoryStorage :=
  { hs := { current_term := 0, voted_for := none, members := members }
    log := []
    snapshot_data := none
    snapshot_dir := snapshot_dir
    state_machine := [] }

/-- `Handler<GetInitialState>`: read the maximum-index log entry (via
`iter().last()`), the maximum applied index, and a copy of the hard
state. -/
def MemoryStorage.getInitialState (s : MemoryStorage) :
    Except MemoryStorageError InitialState × MemoryStorage :=
  (Except.ok
    { last_log_index := ((s.log.getLast?).map (fun p => p.1)).getD 0
      last_log_term := ((s.log.getLast?).map (fun p => p.2.term)).getD 0
      last_applied_log :=
        ((s.state_machine.getLast?).map (fun p => p.1)).getD 0
      hard_state := s.hs },
   s)

/-- `Handler<SaveHardState>`: wholesale replacement of the stored hard
state. -/
def MemoryStorage.saveHardState (h : HardState) (s : MemoryStorage) :
    Except MemoryStorageError Unit × MemoryStorage :=
  (Except.ok (), { s with hs := h })

/-- `Handler<GetLogEntries>`: clone the entries of `log.range(start..stop)`;
`none` models the `BTreeMap::range` panic on `start > stop`. -/
def MemoryStorage.getLogEntries (start stop : Nat) (s : MemoryStorage) :
    Option (Except MemoryStorageError (List Entry) × MemoryStorage) :=
  (btreeRange start stop s.log).map
    (fun r => (Except.ok (r.map (fun p => p.2)), s))

/-- `Handler<AppendLogEntries>`: insert every entry of the batch into the
log at its own index. -/
def MemoryStorage.appendLogEntries (es : List Entry) (s : MemoryStorage) :
    Except MemoryStorageError Unit × MemoryStorage :=
  (Except.ok (), { s with log := writeEntries es s.log })

/-- `Handler<ApplyEntriesToStateMachine>`: insert every entry of the batch
into the state machine at its own index. -/
def MemoryStorage.applyEntriesToStateMachine (es : List Entry)
    (s : MemoryStorage) : Except MemoryStorageError Unit × MemoryStorage :=
  (Except.ok (), { s with state_machine := writeEntries es s.state_machine })

/-- `Handler<CreateSnapshot>`: always fails with `MemoryStorageError`,
touching nothing (the message payload is ignored by the handler). -/
def MemoryStorage.createSnapshot (s : MemoryStorage) :
    Except MemoryStorageError CurrentSnapshotData × MemoryStorage :=
  (Except.error {}, s)

/-- `Handler<InstallSnapshot>`: always fails with `MemoryStorageError`,
touching nothing (the message payload is ignored by the handler). -/
def MemoryStorage.installSnapshot (s : MemoryStorage) :
    Except MemoryStorageError Unit × MemoryStorage :=
  (Except.error {}, s)

/-- `Handler<GetCurrentSnapshot>`: return a copy of the snapshot slot. -/
def MemoryStorage.getCurrentSnapshot (s : MemoryStorage) :
    Except MemoryStorageError (Option CurrentSnapshotData) × MemoryStorage :=
  (Except.ok s.snapshot_data, s)

/-- One request to the backend: the eight operations of the storage
contract, each carrying its input. -/
inductive Op where
  | getInitialState : Op
  | saveHardState : HardState → Op
  | getLogEntries : Nat → Nat → Op
  | appendLogEntries : List Entry → Op
  | applyEntriesToStateMachine : List Entry → Op
  | createSnapshot : Op
  | installSnapshot : Op
  | getCurrentSnapshot : Op
deriving DecidableEq, Repr

/-- The state transition of one operation (the state component of the
corresponding handler; a panicking `GetLogEntries` leaves the state as it
was). -/
def stepOp (o : Op) (s : MemoryStorage) : MemoryStorage :=
  match o with
  | Op.getInitialState => (s.getInitialState).2
  | Op.saveHardState h => (s.saveHardState h).2
  | Op.getLogEntries a b =>
    match s.getLogEntries a b with
    | some r => r.2
    | none => s
  | Op.appendLogEntries es => (s.appendLogEntries es).2
  | Op.applyEntriesToStateMachine es => (s.applyEntriesToStateMachine es).2
  | Op.createSnapshot => (s.createSnapshot).2
  | Op.installSnapshot => (s.installSnapshot).2
  | Op.getCurrentSnapshot => (s.getCurrentSnapshot).2

/-- Run a sequence of operations from a starting state. -/
def runOps (ops : List Op) (s : MemoryStorage) : MemoryStorage :=
  ops.foldl (fun acc o => stepOp o acc) s

/-- Run a sequence of `AppendLogEntries` batches. -/
def applyBatches (bs : List (List Entry)) (s : MemoryStorage) :
    MemoryStorage :=
  bs.foldl (fun acc b => (acc.appendLogEntries b).2) s

/-- Concrete entry `{index 1, term 1}` of the spec scenario. -/
def entryOne : Entry := { index := 1, term := 1, payload := 10 }

/-- Concrete entry `{index 2, term 1}` of the spec scenario. -/
def entryTwo : Entry := { index := 2, term := 1, payload := 20 }

/-- Backend of the spec scenario: constructed with members `{1, 2, 3}`. -/
def scenarioStart : MemoryStorage := MemoryStorage.new [1, 2, 3] "snapshots"

/-- Scenario backend after appending the two entries. -/
def scenarioAppended : MemoryStorage :=
  (scenarioStart.appendLogEntries [entryOne, entryTwo]).2

/-- Concrete backend state with a nonempty log and state machine, used to
instantiate the general theorems. -/
def sampleState : MemoryStorage :=
  { hs := { current_term := 1, voted_for := some 2, members := [1, 2, 3] }
    log := [(1, entryOne), (2, entryTwo)]
    snapshot_data := none
    snapshot_dir := "snapshots"
    state_machine := [(1, entryOne)] }

/-- Concrete entry overwriting index 1 with a later term, used to exercise
last-writer-wins. -/
def entryThree : Entry := { index := 1, term := 2, payload := 30 }

/-! ## Helper lemmas about the `BTreeMap` embedding -/

theorem mem_btreeInsert {k : Nat} {v : Entry} {p : Nat × Entry} :
    ∀ {l : List (Nat × Entry)}, p ∈ btreeInsert k v l → p = (k, v) ∨ p ∈ l := by
  intro l
  induction l with
  | nil =>
    intro h
    simp [btreeInsert] at h
    left
    simp [h]
  | cons q rest ih =>
    obtain ⟨k', v'⟩ := q
    intro h
    simp only [btreeInsert] at h
    by_cases h1 : k < k'
    · rw [if_pos h1] at h
      rcases List.mem_cons.mp h with h | h
      · left; exact h
      · right; exact h
    · rw [if_neg h1] at h
      by_cases h2 : k = k'
      · rw [if_pos h2] at h
        rcases List.mem_cons.mp h with h | h
        · left; exact h
        · right; exact List.mem_cons_of_mem _ h
      · rw [if_neg h2] at h
        rcases List.mem_cons.mp h with h | h
        · right; exact List.mem_cons.mpr (Or.inl h)
        · rcases ih h with h | h
          · left; exact h
          · right; exact List.mem_cons_of_mem _ h

theorem btreeInsert_sorted {k : Nat} {v : Entry} :
    ∀ {l : List (Nat × Entry)}, SortedKeys l → SortedKeys (btreeInsert k v l) := by
  intro l
  induction l with
  | nil =>
    intro _
    simp [btreeInsert]
  | cons q rest ih =>
    obtain ⟨k', v'⟩ := q
    intro h
    obtain ⟨hhead, htail⟩ := List.pairwise_cons.mp h
    simp only [btreeInsert]
    by_cases h1 : k < k'
    · rw [if_pos h1]
      refine List.Pairwise.cons ?_ (List.Pairwise.cons hhead htail)
      intro b hb
      rcases List.mem_cons.mp hb with hb | hb
      · subst hb; exact h1
      · exact Nat.lt_trans h1 (hhead b hb)
    · rw [if_neg h1]
      by_cases h2 : k = k'
      · rw [if_pos h2]
        refine List.Pairwise.cons ?_ htail
        intro b hb
        have := hhead b hb
        simp only [] at this ⊢
        omega
      · rw [if_neg h2]
        refine List.Pairwise.cons ?_ (ih htail)
        intro b hb
        rcases mem_btreeInsert hb with hb | hb
        · subst hb
          simp only []
          omega
        · exact hhead b hb

theorem btreeInsert_keysMatch {k : Nat} {v : Entry} (hv : v.index = k) :
    ∀ {l : List (Nat × Entry)}, KeysMatch l → KeysMatch (btreeInsert k v l) := by
  intro l hl p hp
  rcases mem_btreeInsert hp with h | h
  · subst h; exact hv
  · exact hl p h

theorem lookup_btreeInsert (i k : Nat) (v : Entry) :
    ∀ l : List (Nat × Entry),
      lookup i (btreeInsert k v l) = if i = k then some v else lookup i l := by
  intro l
  induction l with
  | nil =>
    by_cases h : i = k
    · simp [btreeInsert, lookup, List.find?, h]
    · have hk : (k == i) = false := by simp; omega
      simp [btreeInsert, lookup, List.find?, hk, if_neg h]
  | cons q rest ih =>
    obtain ⟨k', v'⟩ := q
    simp only [btreeInsert]
    by_cases h1 : k < k'
    · rw [if_pos h1]
      by_cases h : i = k
      · simp [lookup, List.find?, h]
      · have hk : (k == i) = false := by simp; omega
        simp only [lookup, List.find?, hk]
        simp [if_neg h, lookup]
    · rw [if_neg h1]
      by_cases h2 : k = k'
      · rw [if_pos h2]
        by_cases h : i = k
        · simp [lookup, List.find?, h]
        · have hk : (k == i) = false := by simp; omega
          have hk' : (k' == i) = false := by simp; omega
          simp only [lookup, List.find?, hk, if_neg h, hk']
      · rw [if_neg h2]
        by_cases h : i = k'
        · have hik : ¬ i = k := by omega
          have hk' : (k' == i) = true := by simp; omega
          simp only [lookup, List.find?, hk', if_neg hik]
        · have hk' : (k' == i) = false := by simp; omega
          simp only [lookup, List.find?, hk']
          rw [show (List.find? (fun p => p.1 == i) (btreeInsert k v rest)).map
              (fun p => p.2) = lookup i (btreeInsert k v rest) from rfl]
          rw [show (List.find? (fun p => p.1 == i) rest).map
              (fun p => p.2) = lookup i rest from rfl]
          exact ih

theorem writeEntries_cons (e : Entry) (es : List Entry)
    (l : List (Nat × Entry)) :
    writeEntries (e :: es) l = writeEntries es (btreeInsert e.index e l) := rfl

theorem writeEntries_sorted (es : List Entry) :
    ∀ {l : List (Nat × Entry)}, SortedKeys l → SortedKeys (writeEntries es l) := by
  induction es with
  | nil => intro l h; exact h
  | cons e es ih =>
    intro l h
    rw [writeEntries_cons]
    exact ih (btreeInsert_sorted h)

theorem writeEntries_keysMatch (es : List Entry) :
    ∀ {l : List (Nat × Entry)}, KeysMatch l → KeysMatch (writeEntries es l) := by
  induction es with
  | nil => intro l h; exact h
  | cons e es ih =>
    intro l h
    rw [writeEntries_cons]
    exact ih (btreeInsert_keysMatch rfl h)

theorem mem_writeEntries {p : Nat × Entry} (es : List Entry) :
    ∀ {l : List (Nat × Entry)}, p ∈ writeEntries es l →
      (∃ e ∈ es, p = (e.index, e)) ∨ p ∈ l := by
  induction es with
  | nil => intro l h; right; exact h
  | cons e es ih =>
    intro l h
    rw [writeEntries_cons] at h
    rcases ih h with h2 | h2
    · obtain ⟨e2, he2, hp⟩ := h2
      exact Or.inl ⟨e2, List.mem_cons_of_mem _ he2, hp⟩
    · rcases mem_btreeInsert h2 with h3 | h3
      · exact Or.inl ⟨e, List.mem_cons_self e es, h3⟩
      · exact Or.inr h3

theorem orOpt_none (a : Option Entry) : orOpt a none = a := by
  cases a <;> rfl

theorem lastWriteAt_cons (i : Nat) (e : Entry) (es : List Entry) :
    lastWriteAt i (e :: es) =
      orOpt (lastWriteAt i es) (if e.index = i then some e else none) := by
  simp only [lastWriteAt, orOpt]

theorem lookup_writeEntries (i : Nat) (es : List Entry) :
    ∀ l : List (Nat × Entry),
      lookup i (writeEntries es l) = orOpt (lastWriteAt i es) (lookup i l) := by
  induction es with
  | nil => intro l; rfl
  | cons e es ih =>
    intro l
    rw [writeEntries_cons, ih, lookup_btreeInsert, lastWriteAt_cons]
    cases hlw : lastWriteAt i es with
    | some r => simp [orOpt]
    | none =>
      simp only [orOpt]
      by_cases h : i = e.index
      · simp [h]
      · have h2 : ¬ e.index = i := by omega
        simp [if_neg h, if_neg h2]

theorem find?_map_eq_lookup (i : Nat) :
    ∀ {l : List (Nat × Entry)}, KeysMatch l →
      (l.map (fun p => p.2)).find? (fun e => e.index == i) = lookup i l := by
  intro l
  induction l with
  | nil => intro _; rfl
  | cons p rest ih =>
    intro hk
    have hp : p.2.index = p.1 := hk p (List.mem_cons_self p rest)
    have htail : KeysMatch rest := fun q hq => hk q (List.mem_cons_of_mem _ hq)
    simp only [List.map_cons, List.find?, lookup, hp]
    cases hb : (p.1 == i) with
    | true => rfl
    | false => exact ih htail

theorem le_maxKey {p : Nat × Entry} :
    ∀ {l : List (Nat × Entry)}, p ∈ l → p.1 ≤ maxKey l := by
  intro l
  induction l with
  | nil => intro h; cases h
  | cons q rest ih =>
    intro h
    rcases List.mem_cons.mp h with h | h
    · subst h
      simp only [maxKey, List.map_cons, List.foldr_cons]
      exact Nat.le_max_left _ _
    · have hle := ih h
      simp only [maxKey, List.map_cons, List.foldr_cons]
      simp only [maxKey] at hle
      exact Nat.le_trans hle (Nat.le_max_right _ _)

theorem getLast_key_eq_maxKey :
    ∀ {l : List (Nat × Entry)}, SortedKeys l →
      ((l.getLast?).map (fun p => p.1)).getD 0 = maxKey l := by
  intro l
  induction l with
  | nil => intro _; rfl
  | cons p rest ih =>
    intro h
    obtain ⟨hhead, htail⟩ := List.pairwise_cons.mp h
    cases rest with
    | nil => simp [maxKey]
    | cons q rest2 =>
      have hq : q ∈ q :: rest2 := List.mem_cons_self q rest2
      have h1 : p.1 < q.1 := hhead q hq
      have h2 : q.1 ≤ maxKey (q :: rest2) := le_maxKey hq
      rw [List.getLast?_cons_cons, ih htail]
      have h3 : p.1 ≤ maxKey (q :: rest2) := Nat.le_trans (Nat.le_of_lt h1) h2
      simp only [maxKey, List.map_cons, List.foldr_cons]
      simp only [maxKey, List.map_cons, List.foldr_cons] at h3
      exact (Nat.max_eq_right h3).symm

theorem lookup_maxKey_eq_getLast :
    ∀ {l : List (Nat × Entry)}, SortedKeys l → l ≠ [] →
      lookup (maxKey l) l = (l.getLast?).map (fun p => p.2) := by
  intro l
  induction l with
  | nil => intro _ h; exact absurd rfl h
  | cons p rest ih =>
    intro h _
    obtain ⟨hhead, htail⟩ := List.pairwise_cons.mp h
    cases rest with
    | nil =>
      have : maxKey [p] = p.1 := by simp [maxKey]
      simp [this, lookup, List.find?]
    | cons q rest2 =>
      have hq : q ∈ q :: rest2 := List.mem_cons_self q rest2
      have h1 : p.1 < q.1 := hhead q hq
      have h2 : q.1 ≤ maxKey (q :: rest2) := le_maxKey hq
      have h3 : p.1 ≤ maxKey (q :: rest2) := Nat.le_trans (Nat.le_of_lt h1) h2
      have hmax : maxKey (p :: q :: rest2) = maxKey (q :: rest2) := by
        simp only [maxKey, List.map_cons, List.foldr_cons]
        simp only [maxKey, List.map_cons, List.foldr_cons] at h3
        exact Nat.max_eq_right h3
      have hlt : p.1 < maxKey (q :: rest2) := Nat.lt_of_lt_of_le h1 h2
      have hne : (p.1 == maxKey (q :: rest2)) = false := by simp; omega
      rw [hmax, List.getLast?_cons_cons, ← ih htail (by simp)]
      simp only [lookup, List.find?, hne]

theorem writeEntries_append (xs ys : List Entry) (l : List (Nat × Entry)) :
    writeEntries (xs ++ ys) l = writeEntries ys (writeEntries xs l) := by
  simp only [writeEntries, List.foldl_append]

theorem applyBatches_log (bs : List (List Entry)) :
    ∀ s : MemoryStorage, (applyBatches bs s).log = writeEntries bs.flatten s.log := by
  induction bs with
  | nil => intro s; rfl
  | cons b bs ih =>
    intro s
    show (applyBatches bs ((s.appendLogEntries b).2)).log = _
    rw [ih, List.flatten_cons, writeEntries_append]
    rfl

theorem stepOp_snapshot_data (o : Op) (s : MemoryStorage) :
    (stepOp o s).snapshot_data = s.snapshot_data := by
  cases o with
  | getLogEntries a b =>
    simp only [stepOp, MemoryStorage.getLogEntries]
    cases btreeRange a b s.log <;> simp
  | getInitialState => rfl
  | saveHardState h => rfl
  | appendLogEntries es => rfl
  | applyEntriesToStateMachine es => rfl
  | createSnapshot => rfl
  | installSnapshot => rfl
  | getCurrentSnapshot => rfl

theorem runOps_snapshot_data (ops : List Op) :
    ∀ s : MemoryStorage, (runOps ops s).snapshot_data = s.snapshot_data := by
  induction ops with
  | nil => intro s; rfl
  | cons o ops ih =>
    intro s
    show (runOps ops (stepOp o s)).snapshot_data = _
    rw [ih, stepOp_snapshot_data]

/-! ## Claim theorems -/

/-- Claim C1 (amended): for every backend state whose log satisfies the
`BTreeMap` representation invariants and every range with `a ≤ b`,
`GetLogEntries` over `[a, b)` succeeds and returns exactly the stored
entries with `a ≤ index < b`, in ascending index order, possibly empty.
The original claim's "for every pair of indices" fails when `a > b`, where
`BTreeMap::range` panics. -/
theorem getLogEntries_spec (s : MemoryStorage) (a b : Nat) (hab : a ≤ b)
    (hsort : SortedKeys s.log) (hkeys : KeysMatch s.log) :
    ∃ es, s.getLogEntries a b = some (Except.ok es, s) ∧
      es.Pairwise (fun e1 e2 => e1.index < e2.index) ∧
      ∀ e, e ∈ es ↔ (a ≤ e.index ∧ e.index < b ∧ (e.index, e) ∈ s.log) := by
  refine ⟨(s.log.filter (fun p => decide (a ≤ p.1) && decide (p.1 < b))).map
    (fun p => p.2), ?_, ?_, ?_⟩
  · simp only [MemoryStorage.getLogEntries, btreeRange, if_pos hab,
      Option.map_some']
  · rw [List.pairwise_map]
    refine List.Pairwise.imp_of_mem ?_ (hsort.filter _)
    intro p q hp hq hlt
    have hip : p.2.index = p.1 := hkeys p (List.mem_filter.mp hp).1
    have hiq : q.2.index = q.1 := hkeys q (List.mem_filter.mp hq).1
    rw [hip, hiq]
    exact hlt
  · intro e
    constructor
    · intro he
      obtain ⟨p, hpf, hpe⟩ := List.mem_map.mp he
      obtain ⟨hpl, hpred⟩ := List.mem_filter.mp hpf
      have hind : p.2.index = p.1 := hkeys p hpl
      subst hpe
      simp only [Bool.and_eq_true, decide_eq_true_eq] at hpred
      refine ⟨?_, ?_, ?_⟩
      · rw [hind]; exact hpred.1
      · rw [hind]; exact hpred.2
      · rw [hind]; exact hpl
    · intro he
      obtain ⟨h1, h2, h3⟩ := he
      refine List.mem_map.mpr ⟨(e.index, e), List.mem_filter.mpr ⟨h3, ?_⟩, rfl⟩
      simp only [Bool.and_eq_true, decide_eq_true_eq]
      exact ⟨h1, h2⟩

/-- Witness for C1: the amended theorem applied to a concrete state and
range. -/
theorem getLogEntries_spec_witness :
    ∃ es, sampleState.getLogEntries 1 3 = some (Except.ok es, sampleState) ∧
      es.Pairwise (fun e1 e2 => e1.index < e2.index) ∧
      ∀ e, e ∈ es ↔ (1 ≤ e.index ∧ e.index < 3 ∧ (e.index, e) ∈ sampleState.log) :=
  getLogEntries_spec sampleState 1 3 (by decide) (by decide) (by decide)

/-- Counterexample for C1 as stated: with `a = 2 > b = 1`, `GetLogEntries`
does not return the empty sequence — `BTreeMap::range` panics (modelled as
`none`), so the call is not failure-free for every pair of indices. -/
theorem getLogEntries_inverted_cex :
    ¬ ∃ es, MemoryStorage.getLogEntries 2 1 (MemoryStorage.new [1] "snapshots") =
      some (Except.ok es, MemoryStorage.new [1] "snapshots") := by
  intro hex
  obtain ⟨es, hes⟩ := hex
  simp [MemoryStorage.getLogEntries, btreeRange] at hes

/-- Claim C4: `SaveHardState h` succeeds, replaces the stored hard state
wholesale, and an immediately following `GetInitialState` returns a
`hard_state` equal to `h`. -/
theorem saveHardState_spec (s : MemoryStorage) (h : HardState) :
    s.saveHardState h = (Except.ok (), { s with hs := h }) ∧
    ∃ st, ((s.saveHardState h).2).getInitialState =
        (Except.ok st, (s.saveHardState h).2) ∧ st.hard_state = h :=
  ⟨rfl, ⟨_, rfl, rfl⟩⟩

/-- Claim C5: on the reference backend, `CreateSnapshot` and
`InstallSnapshot` both fail with the storage error and return the state
completely unchanged (log, state machine, hard state and snapshot slot
included). -/
theorem snapshot_ops_fail (s : MemoryStorage) :
    s.createSnapshot = (Except.error MemoryStorageError.mk, s) ∧
    s.installSnapshot = (Except.error MemoryStorageError.mk, s) :=
  ⟨rfl, rfl⟩

/-- Claim C7: a freshly constructed backend has term 0, no vote, exactly
the given members, empty log and state machine, and `GetCurrentSnapshot`
returns absent. -/
theorem new_spec (members : List NodeId) (dir : String) :
    (MemoryStorage.new members dir).hs =
      { current_term := 0, voted_for := none, members := members } ∧
    (MemoryStorage.new members dir).log = [] ∧
    (MemoryStorage.new members dir).state_machine = [] ∧
    (MemoryStorage.new members dir).snapshot_data = none ∧
    (MemoryStorage.new members dir).getCurrentSnapshot =
      (Except.ok none, MemoryStorage.new members dir) :=
  ⟨rfl, rfl, rfl, rfl, rfl⟩

/-- Claim C8: concrete scenario — members `{1,2,3}`, append the entries
`{index 1, term 1}` and `{index 2, term 1}`; then `GetLogEntries 1 3`
returns both entries in index order and `GetInitialState` reports
`last_log_index = 2`, `last_log_term = 1`, `last_applied_log = 0`. -/
theorem scenario_spec :
    scenarioAppended.getLogEntries 1 3 =
      some (Except.ok [entryOne, entryTwo], scenarioAppended) ∧
    ∃ st, scenarioAppended.getInitialState = (Except.ok st, scenarioAppended) ∧
      st.last_log_index = 2 ∧ st.last_log_term = 1 ∧ st.last_applied_log = 0 :=
  ⟨rfl, ⟨_, rfl, rfl, rfl, rfl⟩⟩

/-- Claim C9: frame property — `AppendLogEntries` touches only the log,
`ApplyEntriesToStateMachine` only the state machine, `SaveHardState` only
the hard state. -/
theorem mutators_frame (s : MemoryStorage) (es1 es2 : List Entry)
    (h : HardState) :
    ((s.appendLogEntries es1).2.hs = s.hs ∧
     (s.appendLogEntries es1).2.state_machine = s.state_machine ∧
     (s.appendLogEntries es1).2.snapshot_data = s.snapshot_data ∧
     (s.appendLogEntries es1).2.snapshot_dir = s.snapshot_dir) ∧
    ((s.applyEntriesToStateMachine es2).2.hs = s.hs ∧
     (s.applyEntriesToStateMachine es2).2.log = s.log ∧
     (s.applyEntriesToStateMachine es2).2.snapshot_data = s.snapshot_data ∧
     (s.applyEntriesToStateMachine es2).2.snapshot_dir = s.snapshot_dir) ∧
    ((s.saveHardState h).2.log = s.log ∧
     (s.saveHardState h).2.state_machine = s.state_machine ∧
     (s.saveHardState h).2.snapshot_data = s.snapshot_data ∧
     (s.saveHardState h).2.snapshot_dir = s.snapshot_dir) :=
  ⟨⟨rfl, rfl, rfl, rfl⟩, ⟨rfl, rfl, rfl, rfl⟩, ⟨rfl, rfl, rfl, rfl⟩⟩

/-- Claim C10: on every state reachable from construction by any sequence
of the eight operations, the snapshot slot is still absent, so
`GetCurrentSnapshot` returns absent. -/
theorem reachable_snapshot_absent (ops : List Op) (members : List NodeId)
    (dir : String) :
    (runOps ops (MemoryStorage.new members dir)).snapshot_data = none ∧
    (runOps ops (MemoryStorage.new members dir)).getCurrentSnapshot =
      (Except.ok none, runOps ops (MemoryStorage.new members dir)) := by
  have h := runOps_snapshot_data ops (MemoryStorage.new members dir)
  constructor
  · rw [h]
    rfl
  · simp only [MemoryStorage.getCurrentSnapshot, h]
    rfl

/-- Claim C2: after any sequence of `AppendLogEntries` batches from a fresh
backend, `GetLogEntries` over a range covering every written index returns
entries in strictly increasing index order with no duplicate indices, and
the entry at each index is the last one written there (across calls and
within a batch). -/
theorem append_lastWriterWins (members : List NodeId) (dir : String)
    (bs : List (List Entry)) (stop : Nat)
    (hlt : ∀ e ∈ bs.flatten, e.index < stop) :
    ∃ es,
      (applyBatches bs (MemoryStorage.new members dir)).getLogEntries 0 stop =
        some (Except.ok es, applyBatches bs (MemoryStorage.new members dir)) ∧
      es.Pairwise (fun e1 e2 => e1.index < e2.index) ∧
      ∀ i, es.find? (fun e => e.index == i) = lastWriteAt i bs.flatten := by
  have hlog : (applyBatches bs (MemoryStorage.new members dir)).log =
      writeEntries bs.flatten [] := applyBatches_log bs _
  have hsort : SortedKeys (writeEntries bs.flatten []) :=
    writeEntries_sorted _ List.Pairwise.nil
  have hkeys : KeysMatch (writeEntries bs.flatten []) :=
    writeEntries_keysMatch _ (fun p hp => absurd hp (List.not_mem_nil p))
  have hallkeys : ∀ p ∈ writeEntries bs.flatten [], p.1 < stop := by
    intro p hp
    rcases mem_writeEntries _ hp with hw | hw
    · obtain ⟨e, he, hpe⟩ := hw
      subst hpe
      exact hlt e he
    · exact absurd hw (List.not_mem_nil p)
  have hfilter : (writeEntries bs.flatten []).filter
      (fun p => decide (0 ≤ p.1) && decide (p.1 < stop)) =
      writeEntries bs.flatten [] := by
    apply List.filter_eq_self.mpr
    intro p hp
    simp only [Bool.and_eq_true, decide_eq_true_eq]
    exact ⟨Nat.zero_le _, hallkeys p hp⟩
  have hbr : btreeRange 0 stop
      (applyBatches bs (MemoryStorage.new members dir)).log =
      some (writeEntries bs.flatten []) := by
    rw [hlog]
    simp only [btreeRange, if_pos (Nat.zero_le stop), hfilter]
  refine ⟨(writeEntries bs.flatten []).map (fun p => p.2), ?_, ?_, ?_⟩
  · simp only [MemoryStorage.getLogEntries, hbr, Option.map_some']
  · rw [List.pairwise_map]
    refine List.Pairwise.imp_of_mem ?_ hsort
    intro p q hp hq hpq
    have hip : p.2.index = p.1 := hkeys p hp
    have hiq : q.2.index = q.1 := hkeys q hq
    rw [hip, hiq]
    exact hpq
  · intro i
    rw [find?_map_eq_lookup i hkeys, lookup_writeEntries]
    rw [show lookup i ([] : List (Nat × Entry)) = none from rfl, orOpt_none]

/-- Witness for C2: two batches with an overwrite of index 1 in the second
batch. -/
theorem append_lastWriterWins_witness :
    ∃ es,
      (applyBatches [[entryOne, entryTwo], [entryThree]]
          (MemoryStorage.new [1, 2, 3] "snapshots")).getLogEntries 0 5 =
        some (Except.ok es,
          applyBatches [[entryOne, entryTwo], [entryThree]]
            (MemoryStorage.new [1, 2, 3] "snapshots")) ∧
      es.Pairwise (fun e1 e2 => e1.index < e2.index) ∧
      ∀ i, es.find? (fun e => e.index == i) =
        lastWriteAt i [[entryOne, entryTwo], [entryThree]].flatten :=
  append_lastWriterWins [1, 2, 3] "snapshots" [[entryOne, entryTwo], [entryThree]]
    5 (by decide)

/-- Claim C3: `GetInitialState` returns the maximum log key as
`last_log_index` (with the stored entry at that key supplying both the
reported index and term when the log is nonempty, and `0/0` when empty) and
the maximum state-machine key as `last_applied_log` (`0` when empty). -/
theorem getInitialState_spec (s : MemoryStorage) (h1 : SortedKeys s.log)
    (h2 : SortedKeys s.state_machine) (hkl : KeysMatch s.log) :
    ∃ st, s.getInitialState = (Except.ok st, s) ∧
      st.last_log_index = maxKey s.log ∧
      (s.log = [] → st.last_log_index = 0 ∧ st.last_log_term = 0) ∧
      (s.log ≠ [] → ∃ e, lookup (maxKey s.log) s.log = some e ∧
        st.last_log_index = e.index ∧ st.last_log_term = e.term) ∧
      st.last_applied_log = maxKey s.state_machine ∧
      st.hard_state = s.hs := by
  refine ⟨_, rfl, getLast_key_eq_maxKey h1, ?_, ?_, getLast_key_eq_maxKey h2,
    rfl⟩
  · intro hl
    constructor
    · show ((s.log.getLast?).map (fun p => p.1)).getD 0 = 0
      rw [hl]
      rfl
    · show ((s.log.getLast?).map (fun p => p.2.term)).getD 0 = 0
      rw [hl]
      rfl
  · intro hne
    have hlast := List.getLast?_eq_getLast s.log hne
    have hmem := List.getLast_mem hne
    have hind : (s.log.getLast hne).2.index = (s.log.getLast hne).1 :=
      hkl _ hmem
    refine ⟨(s.log.getLast hne).2, ?_, ?_, ?_⟩
    · rw [lookup_maxKey_eq_getLast h1 hne, hlast]
      rfl
    · show ((s.log.getLast?).map (fun p => p.1)).getD 0 = _
      rw [hlast, Option.map_some', Option.getD_some, hind]
    · show ((s.log.getLast?).map (fun p => p.2.term)).getD 0 = _
      rw [hlast, Option.map_some', Option.getD_some]

/-- Witness for C3: the theorem applied to a concrete state with a
nonempty log and state machine. -/
theorem getInitialState_spec_witness :
    ∃ st, sampleState.getInitialState = (Except.ok st, sampleState) ∧
      st.last_log_index = maxKey sampleState.log ∧
      (sampleState.log = [] → st.last_log_index = 0 ∧ st.last_log_term = 0) ∧
      (sampleState.log ≠ [] →
        ∃ e, lookup (maxKey sampleState.log) sampleState.log = some e ∧
          st.last_log_index = e.index ∧ st.last_log_term = e.term) ∧
      st.last_applied_log = maxKey sampleState.state_machine ∧
      st.hard_state = sampleState.hs :=
  getInitialState_spec sampleState (by decide) (by decide) (by decide)

/-- Claim C6: for every backend state and well-formed input, the six
non-snapshot operations all succeed (well-formedness for `GetLogEntries`
meaning a non-inverted range), while the two snapshot operations are the
only ones that fail. -/
theorem only_snapshot_ops_fail (s : MemoryStorage) (h : HardState)
    (es1 es2 : List Entry) (a b : Nat) (hab : a ≤ b) :
    (∃ v, s.getInitialState = (Except.ok v, s)) ∧
    s.saveHardState h = (Except.ok (), (s.saveHardState h).2) ∧
    (∃ v, s.getLogEntries a b = some (Except.ok v, s)) ∧
    s.appendLogEntries es1 = (Except.ok (), (s.appendLogEntries es1).2) ∧
    s.applyEntriesToStateMachine es2 =
      (Except.ok (), (s.applyEntriesToStateMachine es2).2) ∧
    (∃ v, s.getCurrentSnapshot = (Except.ok v, s)) ∧
    s.createSnapshot = (Except.error MemoryStorageError.mk, s) ∧
    s.installSnapshot = (Except.error MemoryStorageError.mk, s) := by
  refine ⟨⟨_, rfl⟩, rfl,
    ⟨(s.log.filter (fun p => decide (a ≤ p.1) && decide (p.1 < b))).map
      (fun p => p.2), ?_⟩, rfl, rfl, ⟨_, rfl⟩, rfl, rfl⟩
  simp only [MemoryStorage.getLogEntries, btreeRange, if_pos hab,
    Option.map_some']

/-- Witness for C6: the theorem applied to a concrete state, hard state,
batches and range. -/
theorem only_snapshot_ops_fail_witness :
    (∃ v, sampleState.getInitialState = (Except.ok v, sampleState)) ∧
    sampleState.saveHardState
        { current_term := 3, voted_for := none, members := [1] } =
      (Except.ok (), (sampleState.saveHardState
        { current_term := 3, voted_for := none, members := [1] }).2) ∧
    (∃ v, sampleState.getLogEntries 0 2 = some (Except.ok v, sampleState)) ∧
    sampleState.appendLogEntries [entryThree] =
      (Except.ok (), (sampleState.appendLogEntries [entryThree]).2) ∧
    sampleState.applyEntriesToStateMachine [entryTwo] =
      (Except.ok (), (sampleState.applyEntriesToStateMachine [entryTwo]).2) ∧
    (∃ v, sampleState.getCurrentSnapshot = (Except.ok v, sampleState)) ∧
    sampleState.createSnapshot = (Except.error MemoryStorageError.mk, sampleState) ∧
    sampleState.installSnapshot = (Except.error MemoryStorageError.mk, sampleState) :=
  only_snapshot_ops_fail sampleState
    { current_term := 3, voted_for := none, members := [1] }
    [entryThree] [entryTwo] 0 2 (by decide)
